import Mathlib

/-!
Text-Compression: a Huffman coder (`Text_Compressor.cpp`).

A shallow embedding of `src/Text_Compressor.cpp` and the properties of its
pipeline: frequency counting, tree construction over a priority queue, code
assignment, encoding and decoding.

Modelling conventions.

* `std::string` is a `List Char`; `"abc".toList` gives the literal.
* `Node *` is the inductive type `Node`: the null pointer or a heap node with
  the four fields of `struct Node`.  Every node is allocated by `createNode`
  and never shared, so a pointer is identified with the tree it points to.
* `int` is `Int`.  Signed overflow is undefined in the source, so the model
  speaks about inputs whose lengths and encoded lengths fit an `int`.
* `std::unordered_map` is an association list with unique keys
  (`mapGet`, `mapSet`).
* `std::priority_queue<Node *, std::vector<Node *>, Compare>` is a list of
  nodes.  `top()` returns an element that `Compare` puts below no other
  element; which one, among several of equal frequency, depends on the heap
  layout and on the iteration order of the frequency map.  The model takes
  that choice from a parameter `tie : List Nat`: the `k`-th call of `top()`
  on a queue with `m` candidates returns candidate number `tie[k] % m`.
  Every order in which equal-weight nodes can leave the queue is the
  behaviour under some `tie`.
* Loops run on fuel; a result of `none` stands for undefined behaviour
  (`top()` on an empty queue, reading a string out of range) or for fuel
  that ran out, and the theorems show that neither happens.
-/

namespace TextCompressor

/-! ## Data model -/

/-- A value of type `Node *`: `null` is `nullptr`, `mk` a node with its fields
`character`, `frequency`, `left` and `right`. -/
inductive Node where
  | null : Node
  | mk (character : Char) (frequency : Int) (left right : Node) : Node
  deriving DecidableEq

/-- The source's `createNode`. -/
def createNode (character : Char) (frequency : Int) (left right : Node) : Node :=
  Node.mk character frequency left right

/-- Field access `node->frequency` (never evaluated on `nullptr` by the program). -/
def Node.frequency : Node → Int
  | .null => 0
  | .mk _ f _ _ => f

/-- Field access `node->character`. -/
def Node.character : Node → Char
  | .null => '\x00'
  | .mk c _ _ _ => c

/-- The comparison object of the queue: `left->frequency > right->frequency`. -/
def Compare (left right : Node) : Bool :=
  decide (left.frequency > right.frequency)

/-- The source's `isLeaf`: both children are `nullptr`. -/
def isLeaf : Node → Bool
  | .null => false
  | .mk _ _ l r => decide (l = Node.null) && decide (r = Node.null)

/-! ## Association lists for `std::unordered_map` -/

/-- Lookup with a default: the value `m[k]` reads. -/
def mapGet {κ ν : Type} [DecidableEq κ] (m : List (κ × ν)) (k : κ) (dflt : ν) : ν :=
  match m with
  | [] => dflt
  | (k', v) :: rest => if k' = k then v else mapGet rest k dflt

/-- Assignment `m[k] = v`: overwrite the entry of `k`, or add one. -/
def mapSet {κ ν : Type} [DecidableEq κ] (m : List (κ × ν)) (k : κ) (v : ν) : List (κ × ν) :=
  match m with
  | [] => [(k, v)]
  | (k', v') :: rest => if k' = k then (k, v) :: rest else (k', v') :: mapSet rest k v

/-- The keys of a map. -/
def mapKeys {κ ν : Type} (m : List (κ × ν)) : List κ := m.map Prod.fst

/-! ## The functions of the source -/

/-- The source's `encode`: walk the tree, storing at each leaf the code
`currentCode`, or `"1"` when it is empty. -/
def encode : Node → List Char → List (Char × List Char) → List (Char × List Char)
  | .null, _, huffmanCode => huffmanCode
  | .mk c f l r, currentCode, huffmanCode =>
    let h1 := if isLeaf (.mk c f l r) then
        mapSet huffmanCode c (if currentCode ≠ [] then currentCode else ['1'])
      else huffmanCode
    let h2 := encode l (currentCode ++ ['0']) h1
    encode r (currentCode ++ ['1']) h2

/-- Reading `encodedString[index]`: defined for `0 ≤ index ≤ size`, where
position `size` holds the terminating `'\0'`. -/
def readChar (s : List Char) (index : Int) : Option Char :=
  if index < 0 then none
  else if index.toNat < s.length then s.get? index.toNat
  else if index.toNat = s.length then some '\x00'
  else none

/-- The source's `decode`: one walk from `node` down to a leaf.  Returns the
new value of `index` and the characters printed. -/
def decode : Node → Int → List Char → Option (Int × List Char)
  | .null, index, _ => some (index, [])
  | .mk c f l r, index, encodedString =>
    if isLeaf (.mk c f l r) then some (index, [c])
    else
      match readChar encodedString (index + 1) with
      | none => none
      | some b =>
        if b = '0' then decode l (index + 1) encodedString
        else decode r (index + 1) encodedString

/-- The counting loop: `characterFrequency[ch]++` for every `ch`. -/
def countFrequency (inputText : List Char) : List (Char × Int) :=
  inputText.foldl (fun m ch => mapSet m ch (mapGet m ch 0 + 1)) []

/-- One leaf per entry of the frequency map, pushed on the queue. -/
def initialQueue (characterFrequency : List (Char × Int)) : List Node :=
  characterFrequency.foldl
    (fun pq pair => createNode pair.1 pair.2 Node.null Node.null :: pq) []

/-- The elements `top()` may return: those that `Compare` puts below no element. -/
def pqTops (pq : List Node) : List Node :=
  pq.filter (fun x => pq.all (fun y => !Compare x y))

/-- The call `pq.top()` under the tie-break number `k`. -/
def pqTop (k : Nat) (pq : List Node) : Option Node :=
  (pqTops pq).get? (k % (pqTops pq).length)

/-- The merge loop `while (pq.size() != 1)` followed by `root = pq.top()`. -/
def mergeLoop : Nat → List Nat → List Node → Option Node
  | 0, _, _ => none
  | fuel + 1, tie, pq =>
    if pq.length ≠ 1 then
      match pqTop (tie.headD 0) pq with
      | none => none
      | some left =>
        let pq1 := pq.erase left
        match pqTop (tie.tail.headD 0) pq1 with
        | none => none
        | some right =>
          let pq2 := pq1.erase right
          mergeLoop fuel (tie.drop 2)
            (createNode '\x00' (left.frequency + right.frequency) left right :: pq2)
    else pqTop (tie.headD 0) pq

/-- The encoding loop: `encodedString += huffmanCode[ch]` for every `ch`. -/
def encodeText (huffmanCode : List (Char × List Char)) (inputText : List Char) : List Char :=
  inputText.foldl (fun encodedString ch => encodedString ++ mapGet huffmanCode ch []) []

/-- The loop `while (root->frequency--) cout << root->character`: returns the
frequency left in the root and the characters printed. -/
def printLeaf : Nat → Char → Int → Option (Int × List Char)
  | 0, _, _ => none
  | fuel + 1, c, frequency =>
    if frequency ≠ 0 then
      match printLeaf fuel c (frequency - 1) with
      | none => none
      | some (f, out) => some (f, c :: out)
    else some (frequency - 1, [])

/-- The loop `while (index < (int)encodedString.size() - 1) decode(root, index, encodedString)`:
returns the characters printed. -/
def decodeLoop : Nat → Node → Int → List Char → Option (List Char)
  | 0, _, _, _ => none
  | fuel + 1, root, index, encodedString =>
    if index < (encodedString.length : Int) - 1 then
      match decode root index encodedString with
      | none => none
      | some (index', out) =>
        match decodeLoop fuel root index' encodedString with
        | none => none
        | some rest => some (out ++ rest)
    else some []

/-- The values a run of `buildHuffmanTree` computes. -/
structure Run where
  /-- The map after the counting loop. -/
  characterFrequency : List (Char × Int)
  /-- The node `root` after the merge loop. -/
  root : Node
  /-- The map after `encode(root, EMPTY_STRING, huffmanCode)`. -/
  huffmanCode : List (Char × List Char)
  /-- The string after the encoding loop. -/
  encodedString : List Char
  /-- The characters printed after "The decoded string is:". -/
  decoded : List Char
  /-- The tree `root` points to when the function ends. -/
  rootAfter : Node

/-- How a call of `buildHuffmanTree` ends. -/
inductive Outcome where
  /-- The early `return` on the empty string: nothing is built or printed. -/
  | returned : Outcome
  /-- The function ran to its end. -/
  | finished (run : Run) : Outcome
  /-- Undefined behaviour, or fuel that ran out. -/
  | undefined : Outcome

/-- The decoding branch at the end of `buildHuffmanTree`. -/
def decodeAll (root : Node) (encodedString : List Char) : Option (List Char × Node) :=
  if isLeaf root then
    match printLeaf (root.frequency.toNat + 1) root.character root.frequency with
    | none => none
    | some (f, out) =>
      match root with
      | .null => none
      | .mk c _ l r => some (out, .mk c f l r)
  else
    match decodeLoop (encodedString.length + 1) root (-1) encodedString with
    | none => none
    | some out => some (out, root)

/-- The source's `buildHuffmanTree`. -/
def buildHuffmanTree (tie : List Nat) (inputText : List Char) : Outcome :=
  if inputText = [] then Outcome.returned
  else
    let characterFrequency := countFrequency inputText
    let pq := initialQueue characterFrequency
    match mergeLoop pq.length tie pq with
    | none => Outcome.undefined
    | some root =>
      let huffmanCode := encode root [] []
      let encodedString := encodeText huffmanCode inputText
      match decodeAll root encodedString with
      | none => Outcome.undefined
      | some (decoded, rootAfter) =>
        Outcome.finished
          { characterFrequency := characterFrequency
            root := root
            huffmanCode := huffmanCode
            encodedString := encodedString
            decoded := decoded
            rootAfter := rootAfter }

/-! ## Shape of a tree, its leaves and its root-to-leaf paths -/

/-- Every node below (and including) the pointer has no child or two children,
and the pointer itself is not `nullptr`. -/
def Full : Node → Prop
  | .null => False
  | .mk _ _ l r => (l = Node.null ∧ r = Node.null) ∨ (Full l ∧ Full r)

/-- The leaves of a tree, left to right, each with its character and frequency. -/
def leaves : Node → List (Char × Int)
  | .null => []
  | .mk c f l r => if isLeaf (.mk c f l r) then [(c, f)] else leaves l ++ leaves r

/-- The leaves of a tree, each with the path that leads to it from the root:
`'0'` for a step to the left child and `'1'` for a step to the right child. -/
def paths : Node → List (Char × List Char)
  | .null => []
  | .mk c f l r =>
    if isLeaf (.mk c f l r) then [(c, [])]
    else (paths l).map (fun p => (p.1, '0' :: p.2)) ++ (paths r).map (fun p => (p.1, '1' :: p.2))

/-- Every internal node carries the sum of the frequencies of its two children. -/
def SumOfChildren : Node → Prop
  | .null => True
  | .mk c f l r =>
    (isLeaf (.mk c f l r) = false → f = l.frequency + r.frequency) ∧
      SumOfChildren l ∧ SumOfChildren r

/-- Walking from a node along a bit string: left on `'0'`, right on `'1'`. -/
def walk : Node → List Char → Node
  | n, [] => n
  | .null, _ :: _ => Node.null
  | .mk _ _ l r, b :: bs => if b = '0' then walk l bs else walk r bs

/-- The code `encode` stores for a leaf it reaches with the code `p`: `p`
itself, or `"1"` when `p` is empty. -/
def codeOf (p : List Char) : List Char := if p ≠ [] then p else ['1']

/-! ## Definitions used by the statements and the proofs -/

/-- The body of the counting loop. -/
def countStep (m : List (Char × Int)) (ch : Char) : List (Char × Int) :=
  mapSet m ch (mapGet m ch 0 + 1)

/-- Storing a list of entries in a map, one assignment after the other. -/
def mapSetAll {κ ν : Type} [DecidableEq κ] (m : List (κ × ν)) (ps : List (κ × ν)) :
    List (κ × ν) :=
  ps.foldl (fun h p => mapSet h p.1 p.2) m

/-- The entries `encode` stores for a tree reached with the code `currentCode`. -/
def entries (t : Node) (currentCode : List Char) : List (Char × List Char) :=
  (paths t).map (fun p => (p.1, codeOf (currentCode ++ p.2)))

/-- The element `x` of the queue has the least frequency: `top()` may return it. -/
def IsMin (x : Node) (pq : List Node) : Prop :=
  x ∈ pq ∧ ∀ y ∈ pq, x.frequency ≤ y.frequency

/-- The queue after one round of the merge loop that took `left`, then `right`. -/
def merged (pq : List Node) (left right : Node) : List Node :=
  createNode '\x00' (left.frequency + right.frequency) left right :: (pq.erase left).erase right

/-- What the loop keeps true of the queue: every element is a tree whose nodes
have no or two children and whose internal nodes carry the sum of their
children, and the leaves of all elements together are the entries of the
frequency map `F`. -/
structure QueueInv (F : List (Char × Int)) (pq : List Node) : Prop where
  full : ∀ t ∈ pq, Full t
  sums : ∀ t ∈ pq, SumOfChildren t
  perm : (pq.flatMap leaves).Perm F

/-- The root of a finished construction for the frequency map `F`. -/
structure RootInv (F : List (Char × Int)) (root : Node) : Prop where
  full : Full root
  sums : SumOfChildren root
  perm : (leaves root).Perm F

/-- The characters a call prints as the decoded string: no character on the
early return, `run.decoded` for a finished run. -/
def Outcome.output : Outcome → Option (List Char)
  | .returned => some []
  | .finished run => some run.decoded
  | .undefined => none

/-- Field access `node->left`. -/
def Node.left : Node → Node
  | .null => Node.null
  | .mk _ _ l _ => l

/-- Field access `node->right`. -/
def Node.right : Node → Node
  | .null => Node.null
  | .mk _ _ _ r => r

/-- A character of the encoded string as the decoder takes it: `'0'` is a zero
bit, every other character a one bit. -/
def asBit (b : Char) : Char := if b = '0' then '0' else '1'

/-- Every root the merge loop can end with, over all tie-break orders: each
round takes any candidate of `top()` as `left` and any candidate of the next
`top()` as `right`. -/
def allRoots : Nat → List Node → List Node
  | 0, _ => []
  | fuel + 1, pq =>
    if pq.length ≠ 1 then
      (pqTops pq).flatMap (fun left =>
        (pqTops (pq.erase left)).flatMap (fun right =>
          allRoots fuel
            (createNode '\x00' (left.frequency + right.frequency) left right
              :: (pq.erase left).erase right)))
    else pqTops pq

/-- What a run of the merge loop does: the root it ends with, one entry per
round of the loop body (the queue at the start of the round, the node the
first `top()` returned and the node the second `top()` returned), and the
queue left when the loop ends. -/
structure LoopTrace where
  root : Node
  steps : List (List Node × Node × Node)
  remaining : List Node

/-- The merge loop of `mergeLoop`, recording its rounds. -/
def mergeLoopTrace : Nat → List Nat → List Node → Option LoopTrace
  | 0, _, _ => none
  | fuel + 1, tie, pq =>
    if pq.length ≠ 1 then
      match pqTop (tie.headD 0) pq with
      | none => none
      | some left =>
        let pq1 := pq.erase left
        match pqTop (tie.tail.headD 0) pq1 with
        | none => none
        | some right =>
          let pq2 := pq1.erase right
          match mergeLoopTrace fuel (tie.drop 2)
              (createNode '\x00' (left.frequency + right.frequency) left right :: pq2) with
          | none => none
          | some t => some { t with steps := (pq, left, right) :: t.steps }
    else
      match pqTop (tie.headD 0) pq with
      | none => none
      | some root => some { root := root, steps := [], remaining := pq }

/-- The rounds of a trace follow one another: the first starts on the queue
`pq`, each next one on the queue the round before left (the two nodes taken
out, their parent pushed), and the last leaves the queue `final`. -/
def Chained : List Node → List (List Node × Node × Node) → List Node → Prop
  | pq, [], final => final = pq
  | pq, st :: rest, final => st.1 = pq ∧ Chained (merged pq st.2.1 st.2.2) rest final

theorem mapGet_mapSet_self {κ ν : Type} [DecidableEq κ] (m : List (κ × ν)) (k : κ) (v d : ν) :
    mapGet (mapSet m k v) k d = v := by
  induction m with
  | nil => simp [mapSet, mapGet]
  | cons p rest ih =>
    obtain ⟨k', v'⟩ := p
    by_cases h : k' = k
    · simp [mapSet, mapGet, h]
    · simp [mapSet, mapGet, h, ih]

theorem mapGet_mapSet_ne {κ ν : Type} [DecidableEq κ] (m : List (κ × ν)) (k k' : κ) (v d : ν)
    (h : k ≠ k') : mapGet (mapSet m k v) k' d = mapGet m k' d := by
  induction m with
  | nil => simp [mapSet, mapGet, h]
  | cons p rest ih =>
    obtain ⟨k₀, v₀⟩ := p
    by_cases h0 : k₀ = k
    · subst h0
      simp [mapSet, mapGet, h]
    · by_cases h1 : k₀ = k'
      · subst h1
        simp [mapSet, mapGet, h0]
      · simp [mapSet, mapGet, h0, h1, ih]

theorem mem_mapKeys_mapSet {κ ν : Type} [DecidableEq κ] (m : List (κ × ν)) (k k' : κ) (v : ν) :
    k' ∈ mapKeys (mapSet m k v) ↔ k' = k ∨ k' ∈ mapKeys m := by
  induction m with
  | nil => simp [mapSet, mapKeys]
  | cons p rest ih =>
    obtain ⟨k₀, v₀⟩ := p
    by_cases h0 : k₀ = k
    · subst h0
      simp [mapSet, mapKeys]
    · simp only [mapKeys] at ih
      simp [mapSet, mapKeys, h0, ih]
      tauto

theorem nodup_mapKeys_mapSet {κ ν : Type} [DecidableEq κ] (m : List (κ × ν)) (k : κ) (v : ν)
    (h : (mapKeys m).Nodup) : (mapKeys (mapSet m k v)).Nodup := by
  induction m with
  | nil => simp [mapSet, mapKeys]
  | cons p rest ih =>
    obtain ⟨k₀, v₀⟩ := p
    have hn : k₀ ∉ mapKeys rest ∧ (mapKeys rest).Nodup := by
      simpa [mapKeys] using h
    by_cases h0 : k₀ = k
    · subst h0
      simpa [mapSet, mapKeys] using h
    · have hmem := mem_mapKeys_mapSet rest k k₀ v
      have ih' := ih hn.2
      simp only [mapSet, h0, if_false, mapKeys, List.map_cons, List.nodup_cons]
      refine ⟨?_, ih'⟩
      intro hc
      rcases hmem.mp hc with h1 | h1
      · exact h0 h1
      · exact hn.1 h1

theorem mapGet_of_not_mem {κ ν : Type} [DecidableEq κ] (m : List (κ × ν)) (k : κ) (d : ν)
    (h : k ∉ mapKeys m) : mapGet m k d = d := by
  induction m with
  | nil => simp [mapGet]
  | cons p rest ih =>
    obtain ⟨k₀, v₀⟩ := p
    have hn : ¬ k = k₀ ∧ k ∉ mapKeys rest := by
      simpa [mapKeys] using h
    have h0 : ¬ k₀ = k := fun e => hn.1 e.symm
    simp [mapGet, h0, ih hn.2]

theorem mapGet_of_mem {κ ν : Type} [DecidableEq κ] (m : List (κ × ν)) (k : κ) (v d : ν)
    (hn : (mapKeys m).Nodup) (h : (k, v) ∈ m) : mapGet m k d = v := by
  induction m with
  | nil => simp at h
  | cons p rest ih =>
    obtain ⟨k₀, v₀⟩ := p
    have hn' : k₀ ∉ mapKeys rest ∧ (mapKeys rest).Nodup := by
      simpa [mapKeys] using hn
    rcases List.mem_cons.mp h with h1 | h1
    · cases h1
      simp [mapGet]
    · have hk : k ∈ mapKeys rest := List.mem_map.mpr ⟨(k, v), h1, rfl⟩
      have h0 : ¬ k₀ = k := fun e => hn'.1 (e ▸ hk)
      simp [mapGet, h0, ih hn'.2 h1]

theorem countFrequency_eq (S : List Char) : countFrequency S = S.foldl countStep [] := rfl

theorem mapGet_foldl_countStep (S : List Char) (m : List (Char × Int)) (c : Char) :
    mapGet (S.foldl countStep m) c 0 = mapGet m c 0 + (S.count c : Int) := by
  induction S generalizing m with
  | nil => simp
  | cons a S ih =>
    rw [List.foldl_cons, ih]
    by_cases h : a = c
    · subst h
      simp [countStep, mapGet_mapSet_self]
      ring
    · have : (a == c) = false := by simpa using h
      simp [countStep, mapGet_mapSet_ne _ _ _ _ _ h, List.count_cons, this]

theorem mem_mapKeys_foldl_countStep (S : List Char) (m : List (Char × Int)) (c : Char) :
    c ∈ mapKeys (S.foldl countStep m) ↔ c ∈ mapKeys m ∨ c ∈ S := by
  induction S generalizing m with
  | nil => simp
  | cons a S ih =>
    rw [List.foldl_cons, ih]
    simp only [countStep, mem_mapKeys_mapSet, List.mem_cons]
    tauto

theorem nodup_mapKeys_foldl_countStep (S : List Char) (m : List (Char × Int))
    (h : (mapKeys m).Nodup) : (mapKeys (S.foldl countStep m)).Nodup := by
  induction S generalizing m with
  | nil => simpa using h
  | cons a S ih =>
    rw [List.foldl_cons]
    exact ih _ (nodup_mapKeys_mapSet _ _ _ h)

theorem nodup_mapKeys_countFrequency (S : List Char) : (mapKeys (countFrequency S)).Nodup :=
  nodup_mapKeys_foldl_countStep S [] (by simp [mapKeys])

theorem mem_mapKeys_countFrequency (S : List Char) (c : Char) :
    c ∈ mapKeys (countFrequency S) ↔ c ∈ S := by
  rw [countFrequency_eq, mem_mapKeys_foldl_countStep]
  simp [mapKeys]

theorem mapGet_countFrequency (S : List Char) (c : Char) :
    mapGet (countFrequency S) c 0 = (S.count c : Int) := by
  rw [countFrequency_eq, mapGet_foldl_countStep]
  simp [mapGet]

/-! ## Shape lemmas -/

theorem isLeaf_mk (c : Char) (f : Int) (l r : Node) :
    isLeaf (Node.mk c f l r) = true ↔ l = Node.null ∧ r = Node.null := by
  simp [isLeaf]

theorem Full.children {c : Char} {f : Int} {l r : Node} (h : Full (Node.mk c f l r))
    (hl : isLeaf (Node.mk c f l r) = false) : Full l ∧ Full r := by
  rcases h with h | h
  · have := (isLeaf_mk c f l r).mpr h
    rw [hl] at this
    cases this
  · exact h

theorem paths_map_fst (t : Node) : (paths t).map Prod.fst = (leaves t).map Prod.fst := by
  induction t with
  | null => rfl
  | mk c f l r ihl ihr =>
    by_cases h : isLeaf (Node.mk c f l r) = true
    · simp [paths, leaves, h]
    · simp [paths, leaves, h, List.map_map, Function.comp_def, ← ihl, ← ihr]

theorem paths_ne_nil_of_not_leaf {c : Char} {f : Int} {l r : Node}
    (hl : isLeaf (Node.mk c f l r) = false) {s : Char} {p : List Char}
    (h : (s, p) ∈ paths (Node.mk c f l r)) : p ≠ [] := by
  simp only [paths, hl, Bool.false_eq_true, if_false, List.mem_append, List.mem_map] at h
  rcases h with ⟨q, _, hq⟩ | ⟨q, _, hq⟩ <;>
  · cases hq
    simp

/-! ## The code table is the list of paths -/

theorem mem_mapKeys_mapSetAll {κ ν : Type} [DecidableEq κ] (ps m : List (κ × ν)) (k : κ) :
    k ∈ mapKeys (mapSetAll m ps) ↔ k ∈ mapKeys m ∨ k ∈ mapKeys ps := by
  induction ps generalizing m with
  | nil => simp [mapSetAll, mapKeys]
  | cons p ps ih =>
    have := ih (mapSet m p.1 p.2)
    simp only [mapSetAll, List.foldl_cons] at this ⊢
    rw [this, mem_mapKeys_mapSet]
    simp only [mapKeys, List.map_cons, List.mem_cons]
    tauto

theorem nodup_mapKeys_mapSetAll {κ ν : Type} [DecidableEq κ] (ps m : List (κ × ν))
    (h : (mapKeys m).Nodup) : (mapKeys (mapSetAll m ps)).Nodup := by
  induction ps generalizing m with
  | nil => simpa [mapSetAll] using h
  | cons p ps ih =>
    have := ih (mapSet m p.1 p.2) (nodup_mapKeys_mapSet _ _ _ h)
    simpa [mapSetAll] using this

theorem mapGet_mapSetAll_of_not_mem {κ ν : Type} [DecidableEq κ] (ps m : List (κ × ν)) (k : κ)
    (d : ν) (h : k ∉ mapKeys ps) : mapGet (mapSetAll m ps) k d = mapGet m k d := by
  induction ps generalizing m with
  | nil => simp [mapSetAll]
  | cons p ps ih =>
    have hk : ¬ k = p.1 ∧ k ∉ mapKeys ps := by simpa [mapKeys] using h
    have := ih (mapSet m p.1 p.2) hk.2
    simp only [mapSetAll, List.foldl_cons] at this ⊢
    rw [this, mapGet_mapSet_ne _ _ _ _ _ (fun e => hk.1 e.symm)]

theorem mapGet_mapSetAll_of_mem {κ ν : Type} [DecidableEq κ] (ps m : List (κ × ν)) (k : κ)
    (v d : ν) (hn : (mapKeys ps).Nodup) (h : (k, v) ∈ ps) :
    mapGet (mapSetAll m ps) k d = v := by
  induction ps generalizing m with
  | nil => simp at h
  | cons p ps ih =>
    have hn' : p.1 ∉ mapKeys ps ∧ (mapKeys ps).Nodup := by simpa [mapKeys] using hn
    rcases List.mem_cons.mp h with h1 | h1
    · subst h1
      have := mapGet_mapSetAll_of_not_mem ps (mapSet m k v) k d hn'.1
      simp only [mapSetAll, List.foldl_cons] at this ⊢
      rw [this, mapGet_mapSet_self]
    · have := ih (mapSet m p.1 p.2) hn'.2 h1
      simpa [mapSetAll] using this

theorem entries_mk_of_not_leaf {c : Char} {f : Int} {l r : Node}
    (hl : isLeaf (Node.mk c f l r) = false) (cur : List Char) :
    entries (Node.mk c f l r) cur = entries l (cur ++ ['0']) ++ entries r (cur ++ ['1']) := by
  simp [entries, paths, hl, List.map_map, Function.comp_def]

theorem encode_eq (t : Node) (cur : List Char) (h : List (Char × List Char)) :
    encode t cur h = mapSetAll h (entries t cur) := by
  induction t generalizing cur h with
  | null => simp [encode, entries, paths, mapSetAll]
  | mk c f l r ihl ihr =>
    by_cases hl : isLeaf (Node.mk c f l r) = true
    · obtain ⟨h1, h2⟩ := (isLeaf_mk c f l r).mp hl
      subst h1 h2
      simp [encode, entries, paths, mapSetAll, isLeaf, codeOf]
    · have hl' : isLeaf (Node.mk c f l r) = false := by simpa using hl
      rw [entries_mk_of_not_leaf hl']
      simp only [encode, hl', Bool.false_eq_true, if_false]
      rw [ihr, ihl]
      simp [mapSetAll, List.foldl_append]

theorem mapKeys_entries (t : Node) (cur : List Char) :
    mapKeys (entries t cur) = (leaves t).map Prod.fst := by
  rw [← paths_map_fst]
  simp [mapKeys, entries, List.map_map, Function.comp_def]

/-- The code table of a tree: its keys are the leaf characters. -/
theorem mem_mapKeys_encode (t : Node) (s : Char) :
    s ∈ mapKeys (encode t [] []) ↔ s ∈ (leaves t).map Prod.fst := by
  rw [encode_eq, mem_mapKeys_mapSetAll, mapKeys_entries]
  simp [mapKeys]

/-- The code table of a tree with distinct leaf characters: the code of a leaf
is its path, or `"1"` for the empty path. -/
theorem mapGet_encode (t : Node) (hn : ((leaves t).map Prod.fst).Nodup) (s : Char)
    (p : List Char) (h : (s, p) ∈ paths t) : mapGet (encode t [] []) s [] = codeOf p := by
  rw [encode_eq]
  apply mapGet_mapSetAll_of_mem
  · rw [mapKeys_entries]
    exact hn
  · exact List.mem_map.mpr ⟨(s, p), h, by simp⟩

theorem nodup_mapKeys_encode (t : Node) : (mapKeys (encode t [] [])).Nodup := by
  rw [encode_eq]
  exact nodup_mapKeys_mapSetAll _ _ (by simp [mapKeys])

theorem exists_path_of_mem_leaves (t : Node) (s : Char)
    (h : s ∈ (leaves t).map Prod.fst) : ∃ p, (s, p) ∈ paths t := by
  rw [← paths_map_fst] at h
  obtain ⟨q, hq, rfl⟩ := List.mem_map.mp h
  exact ⟨q.2, hq⟩

/-! ## Paths: prefix-freeness and walking -/

theorem paths_prefix_free (t : Node) (s₁ s₂ : Char) (p₁ p₂ : List Char)
    (h₁ : (s₁, p₁) ∈ paths t) (h₂ : (s₂, p₂) ∈ paths t) (hne : s₁ ≠ s₂) : ¬ p₁ <+: p₂ := by
  induction t generalizing p₁ p₂ with
  | null => simp [paths] at h₁
  | mk c f l r ihl ihr =>
    by_cases hl : isLeaf (Node.mk c f l r) = true
    · simp only [paths, hl, if_true, List.mem_singleton, Prod.mk.injEq] at h₁ h₂
      exact absurd (h₁.1.trans h₂.1.symm) hne
    · have hl' : isLeaf (Node.mk c f l r) = false := by simpa using hl
      simp only [paths, hl', Bool.false_eq_true, if_false, List.mem_append, List.mem_map] at h₁ h₂
      rcases h₁ with ⟨q₁, hq₁, e₁⟩ | ⟨q₁, hq₁, e₁⟩ <;>
      rcases h₂ with ⟨q₂, hq₂, e₂⟩ | ⟨q₂, hq₂, e₂⟩ <;>
      · cases e₁
        cases e₂
        intro hp
        first
          | exact ihl _ _ hq₁ hq₂ ((List.cons_prefix_cons.mp hp).2)
          | exact ihr _ _ hq₁ hq₂ ((List.cons_prefix_cons.mp hp).2)
          | exact absurd (List.cons_prefix_cons.mp hp).1 (by decide)

theorem walk_path (t : Node) (s : Char) (p : List Char) (h : (s, p) ∈ paths t) :
    ∃ f, walk t p = Node.mk s f Node.null Node.null := by
  induction t generalizing p with
  | null => simp [paths] at h
  | mk c f l r ihl ihr =>
    by_cases hl : isLeaf (Node.mk c f l r) = true
    · simp only [paths, hl, if_true, List.mem_singleton, Prod.mk.injEq] at h
      obtain ⟨h1, h2⟩ := (isLeaf_mk c f l r).mp hl
      obtain ⟨rfl, rfl⟩ := h
      subst h1 h2
      exact ⟨f, rfl⟩
    · have hl' : isLeaf (Node.mk c f l r) = false := by simpa using hl
      simp only [paths, hl', Bool.false_eq_true, if_false, List.mem_append, List.mem_map] at h
      rcases h with ⟨q, hq, e⟩ | ⟨q, hq, e⟩
      · cases e
        simpa [walk] using ihl _ hq
      · cases e
        simpa [walk] using ihr _ hq

/-! ## Decoding one code word, then a whole text -/

theorem readChar_append (pre rest : List Char) (b : Char) :
    readChar (pre ++ b :: rest) (pre.length : Int) = some b := by
  have h1 : ¬ ((pre.length : Int) < 0) := by omega
  have h2 : (pre ++ b :: rest)[pre.length]? = some b := by
    rw [List.getElem?_append_right (le_refl _)]
    simp
  simp [readChar, h1, h2]

theorem decode_path (t : Node) (ht : Full t) (s : Char) (p pre suf : List Char)
    (h : (s, p) ∈ paths t) :
    decode t ((pre.length : Int) - 1) (pre ++ p ++ suf)
      = some ((pre.length : Int) + (p.length : Int) - 1, [s]) := by
  induction t generalizing p pre with
  | null => cases ht
  | mk c f l r ihl ihr =>
    by_cases hl : isLeaf (Node.mk c f l r) = true
    · simp only [paths, hl, if_true, List.mem_singleton, Prod.mk.injEq] at h
      obtain ⟨rfl, rfl⟩ := h
      simp [decode, hl]
    · have hl' : isLeaf (Node.mk c f l r) = false := by simpa using hl
      have hc := Full.children ht hl'
      simp only [paths, hl', Bool.false_eq_true, if_false, List.mem_append, List.mem_map] at h
      have hidx : (pre.length : Int) - 1 + 1 = (pre.length : Int) := by ring
      rcases h with ⟨q, hq, e⟩ | ⟨q, hq, e⟩
      · cases e
        have hr : readChar (pre ++ ('0' :: q.2) ++ suf) (pre.length : Int) = some '0' := by
          simpa using readChar_append pre (q.2 ++ suf) '0'
        have ih := ihl hc.1 q.2 (pre ++ ['0']) hq
        simp only [decode, hl', Bool.false_eq_true, if_false, hidx, hr]
        simp only [List.length_append, List.length_singleton, Nat.cast_add, Nat.cast_one,
          add_sub_cancel_right, List.append_assoc, List.singleton_append] at ih
        simp only [if_true, List.append_assoc, List.cons_append, List.length_cons, Nat.cast_add,
          Nat.cast_one]
        rw [List.cons_append] at ih
        rw [ih]
        congr 2
        ring
      · cases e
        have hr : readChar (pre ++ ('1' :: q.2) ++ suf) (pre.length : Int) = some '1' := by
          simpa using readChar_append pre (q.2 ++ suf) '1'
        have ih := ihr hc.2 q.2 (pre ++ ['1']) hq
        simp only [decode, hl', Bool.false_eq_true, if_false, hidx, hr]
        simp only [List.length_append, List.length_singleton, Nat.cast_add, Nat.cast_one,
          add_sub_cancel_right, List.append_assoc, List.singleton_append] at ih
        have h10 : ¬ ('1' = '0') := by decide
        simp only [h10, if_false, List.append_assoc, List.cons_append, List.length_cons,
          Nat.cast_add, Nat.cast_one]
        rw [List.cons_append] at ih
        rw [ih]
        congr 2
        ring

theorem encodeText_eq (T : List (Char × List Char)) (S : List Char) :
    encodeText T S = (S.map (fun ch => mapGet T ch [])).flatten := by
  have key : ∀ (acc : List Char),
      S.foldl (fun e ch => e ++ mapGet T ch []) acc
        = acc ++ (S.map (fun ch => mapGet T ch [])).flatten := by
    induction S with
    | nil => simp
    | cons a S ih =>
      intro acc
      simp [List.foldl_cons, ih, List.append_assoc]
  simpa [encodeText] using key []

theorem decodeLoop_flatten (root : Node) (hr : Full root) (code : Char → List Char)
    (S : List Char) (hS : ∀ s ∈ S, (s, code s) ∈ paths root ∧ code s ≠ [])
    (pre : List Char) (fuel : Nat) (hf : S.length < fuel) :
    decodeLoop fuel root ((pre.length : Int) - 1) (pre ++ (S.map code).flatten) = some S := by
  induction S generalizing pre fuel with
  | nil =>
    obtain ⟨fuel, rfl⟩ : ∃ n, fuel = n + 1 := ⟨fuel - 1, by simp at hf; omega⟩
    simp [decodeLoop]
  | cons s S ih =>
    obtain ⟨fuel, rfl⟩ : ∃ n, fuel = n + 1 := ⟨fuel - 1, by omega⟩
    have hs := hS s (List.mem_cons_self _ _)
    have hpos : 0 < (code s).length := List.length_pos.mpr hs.2
    have hcond : (pre.length : Int) - 1
        < ((pre ++ (List.map code (s :: S)).flatten).length : Int) - 1 := by
      simp only [List.map_cons, List.flatten_cons, List.length_append, Nat.cast_add]
      omega
    have hd := decode_path root hr s (code s) pre ((S.map code).flatten) hs.1
    have ih' := ih (fun x hx => hS x (List.mem_cons_of_mem _ hx)) (pre ++ code s) fuel
      (by simp at hf; omega)
    simp only [List.length_append, Nat.cast_add, List.append_assoc] at ih' hd
    rw [decodeLoop, if_pos hcond]
    simp only [List.map_cons, List.flatten_cons, hd, ih']
    simp

/-! ## The priority queue and the merge loop -/

theorem mem_pqTops {pq : List Node} {x : Node} : x ∈ pqTops pq ↔ IsMin x pq := by
  simp [pqTops, IsMin, Compare]

theorem exists_isMin {pq : List Node} (h : pq ≠ []) : ∃ x, IsMin x pq := by
  induction pq with
  | nil => exact absurd rfl h
  | cons a pq ih =>
    by_cases hp : pq = []
    · subst hp
      exact ⟨a, by simp [IsMin]⟩
    · obtain ⟨x, hx, hmin⟩ := ih hp
      by_cases hax : a.frequency ≤ x.frequency
      · refine ⟨a, List.mem_cons_self _ _, ?_⟩
        intro y hy
        rcases List.mem_cons.mp hy with rfl | hy
        · exact le_refl _
        · exact le_trans hax (hmin y hy)
      · refine ⟨x, List.mem_cons_of_mem _ hx, ?_⟩
        intro y hy
        rcases List.mem_cons.mp hy with rfl | hy
        · omega
        · exact hmin y hy

theorem pqTop_isMin {k : Nat} {pq : List Node} {x : Node} (h : pqTop k pq = some x) :
    IsMin x pq := by
  unfold pqTop at h
  exact mem_pqTops.mp (List.get?_mem h)

theorem pqTop_exists (k : Nat) {pq : List Node} (h : pq ≠ []) : ∃ x, pqTop k pq = some x := by
  obtain ⟨x, hx⟩ := exists_isMin h
  have hpos : 0 < (pqTops pq).length := List.length_pos_of_mem (mem_pqTops.mpr hx)
  have hlt : k % (pqTops pq).length < (pqTops pq).length := Nat.mod_lt _ hpos
  exact ⟨(pqTops pq).get ⟨_, hlt⟩, by unfold pqTop; exact List.get?_eq_get hlt⟩

/-- Every minimal element is returned by `top()` under some tie-break number. -/
theorem pqTop_complete {pq : List Node} {x : Node} (h : IsMin x pq) :
    ∃ k, pqTop k pq = some x := by
  obtain ⟨i, hi, hx⟩ := List.getElem_of_mem (mem_pqTops.mpr h)
  refine ⟨i, ?_⟩
  unfold pqTop
  rw [Nat.mod_eq_of_lt hi, List.get?_eq_getElem?, List.getElem?_eq_getElem hi, hx]

theorem length_merged {pq : List Node} {left right : Node} (hl : left ∈ pq)
    (hr : right ∈ pq.erase left) : (merged pq left right).length + 1 = pq.length := by
  have h1 := List.length_erase_of_mem hl
  have h2 := List.length_erase_of_mem hr
  have h3 := List.length_pos_of_mem hl
  have h4 := List.length_pos_of_mem hr
  simp only [merged, List.length_cons]
  omega

/-- Induction along the merge loop.  `P` is carried forward through every
round; `R` relates the queue of each round to the root the loop ends with. -/
theorem mergeLoop_rec (P : List Node → Prop) (R : List Node → Node → Prop)
    (hP : ∀ pq left right, 2 ≤ pq.length → P pq → IsMin left pq → IsMin right (pq.erase left) →
      P (merged pq left right))
    (hbase : ∀ root, P [root] → R [root] root)
    (hR : ∀ pq left right root, 2 ≤ pq.length → P pq → IsMin left pq →
      IsMin right (pq.erase left) → R (merged pq left right) root → R pq root) :
    ∀ (fuel : Nat) (tie : List Nat) (pq : List Node), pq ≠ [] → pq.length ≤ fuel → P pq →
      ∃ root, mergeLoop fuel tie pq = some root ∧ R pq root := by
  intro fuel
  induction fuel with
  | zero =>
    intro tie pq hne hlen _
    have : pq = [] := List.length_eq_zero.mp (Nat.le_zero.mp hlen)
    exact absurd this hne
  | succ fuel ih =>
    intro tie pq hne hlen hp
    by_cases h1 : pq.length = 1
    · obtain ⟨root, rfl⟩ := List.length_eq_one.mp h1
      obtain ⟨x, hx⟩ := pqTop_exists (tie.headD 0) hne
      have hxr : x = root := by simpa using (pqTop_isMin hx).1
      subst hxr
      exact ⟨x, by rw [mergeLoop, if_neg (by simp)]; exact hx, hbase x hp⟩
    · have hpos := List.length_pos.mpr hne
      have h2 : 2 ≤ pq.length := by omega
      obtain ⟨left, hleft⟩ := pqTop_exists (tie.headD 0) hne
      have hlmin := pqTop_isMin hleft
      have hlen1 := List.length_erase_of_mem hlmin.1
      have hne1 : pq.erase left ≠ [] := by
        intro h
        rw [h] at hlen1
        simp at hlen1
        omega
      obtain ⟨right, hright⟩ := pqTop_exists (tie.tail.headD 0) hne1
      have hrmin := pqTop_isMin hright
      have hlenm := length_merged hlmin.1 hrmin.1
      obtain ⟨root, hroot, hrel⟩ := ih (tie.drop 2) (merged pq left right)
        (by simp [merged]) (by omega) (hP pq left right h2 hp hlmin hrmin)
      refine ⟨root, ?_, hR pq left right root h2 hp hlmin hrmin hrel⟩
      simp only [mergeLoop, ne_eq, h1, not_false_eq_true, if_true, hleft, hright]
      exact hroot

theorem isLeaf_createNode_of_full {c : Char} {f : Int} {l r : Node} (hl : Full l) :
    isLeaf (createNode c f l r) = false := by
  cases l with
  | null => cases hl
  | mk _ _ _ _ => simp [createNode, isLeaf]

theorem queueInv_merged {F : List (Char × Int)} {pq : List Node} {left right : Node}
    (h : QueueInv F pq) (hl : IsMin left pq) (hr : IsMin right (pq.erase left)) :
    QueueInv F (merged pq left right) := by
  have hrmem : right ∈ pq := List.mem_of_mem_erase hr.1
  have hfl := h.full left hl.1
  have hfr := h.full right hrmem
  have hleaf : isLeaf (createNode '\x00' (left.frequency + right.frequency) left right) = false :=
    isLeaf_createNode_of_full hfl
  have hmem : ∀ t ∈ (pq.erase left).erase right, t ∈ pq := fun t ht =>
    List.mem_of_mem_erase (List.mem_of_mem_erase ht)
  refine ⟨?_, ?_, ?_⟩
  · intro t ht
    rcases List.mem_cons.mp ht with rfl | ht
    · exact Or.inr ⟨hfl, hfr⟩
    · exact h.full t (hmem t ht)
  · intro t ht
    rcases List.mem_cons.mp ht with rfl | ht
    · simp only [createNode] at hleaf ⊢
      exact ⟨fun _ => rfl, h.sums left hl.1, h.sums right hrmem⟩
    · exact h.sums t (hmem t ht)
  · have hperm : pq.Perm (left :: right :: (pq.erase left).erase right) :=
      (List.perm_cons_erase hl.1).trans ((List.perm_cons_erase hr.1).cons left)
    have h1 := (hperm.flatMap_right leaves).symm.trans h.perm
    refine List.Perm.trans ?_ h1
    simp only [merged, List.flatMap_cons]
    simp only [createNode] at hleaf
    simp [createNode, leaves, hleaf]

theorem initialQueue_eq (F : List (Char × Int)) :
    initialQueue F = (F.map (fun p => createNode p.1 p.2 Node.null Node.null)).reverse := by
  have key : ∀ (acc : List Node),
      F.foldl (fun pq pair => createNode pair.1 pair.2 Node.null Node.null :: pq) acc
        = (F.map (fun p => createNode p.1 p.2 Node.null Node.null)).reverse ++ acc := by
    induction F with
    | nil => simp
    | cons a F ih =>
      intro acc
      simp [List.foldl_cons, ih]
  simpa [initialQueue] using key []

theorem length_initialQueue (F : List (Char × Int)) : (initialQueue F).length = F.length := by
  simp [initialQueue_eq]

theorem mem_initialQueue {F : List (Char × Int)} {t : Node} (h : t ∈ initialQueue F) :
    ∃ p ∈ F, t = Node.mk p.1 p.2 Node.null Node.null := by
  rw [initialQueue_eq] at h
  simp only [List.mem_reverse, List.mem_map] at h
  obtain ⟨p, hp, rfl⟩ := h
  exact ⟨p, hp, rfl⟩

theorem flatMap_leaves_map_leaf (F : List (Char × Int)) :
    (F.map (fun p => createNode p.1 p.2 Node.null Node.null)).flatMap leaves = F := by
  induction F with
  | nil => rfl
  | cons a F ih =>
    simp only [List.map_cons, List.flatMap_cons, ih]
    simp [createNode, leaves, isLeaf]

theorem queueInv_initialQueue (F : List (Char × Int)) : QueueInv F (initialQueue F) := by
  refine ⟨?_, ?_, ?_⟩
  · intro t ht
    obtain ⟨p, _, rfl⟩ := mem_initialQueue ht
    exact Or.inl ⟨rfl, rfl⟩
  · intro t ht
    obtain ⟨p, _, rfl⟩ := mem_initialQueue ht
    simp [SumOfChildren, isLeaf]
  · rw [initialQueue_eq]
    have := (List.reverse_perm (F.map (fun p => createNode p.1 p.2 Node.null Node.null))).flatMap_right
      leaves
    rw [flatMap_leaves_map_leaf] at this
    exact this

theorem countFrequency_ne_nil {S : List Char} (h : S ≠ []) : countFrequency S ≠ [] := by
  obtain ⟨a, ha⟩ := List.exists_mem_of_ne_nil S h
  have := (mem_mapKeys_countFrequency S a).mpr ha
  intro hc
  rw [hc] at this
  simp [mapKeys] at this

/-- The merge loop, started on the leaves of a non-empty input, ends with a root
that satisfies the invariant of the queue. -/
theorem mergeLoop_initial (tie : List Nat) (S : List Char) (h : S ≠ []) :
    ∃ root, mergeLoop (initialQueue (countFrequency S)).length tie
        (initialQueue (countFrequency S)) = some root ∧
      QueueInv (countFrequency S) [root] := by
  have hne : initialQueue (countFrequency S) ≠ [] := by
    intro hc
    have := length_initialQueue (countFrequency S)
    rw [hc] at this
    exact countFrequency_ne_nil h (List.length_eq_zero.mp this.symm)
  exact mergeLoop_rec (QueueInv (countFrequency S)) (fun _ root => QueueInv (countFrequency S) [root])
    (fun pq left right _ hp hl hr => queueInv_merged hp hl hr)
    (fun root hp => hp)
    (fun _ _ _ _ _ _ _ _ hrel => hrel)
    _ tie _ hne (le_refl _) (queueInv_initialQueue _)

/-! ## The root the merge loop ends with -/

theorem rootInv_of_queueInv {F : List (Char × Int)} {root : Node} (h : QueueInv F [root]) :
    RootInv F root :=
  ⟨h.full root (List.mem_singleton_self _), h.sums root (List.mem_singleton_self _),
    by simpa using h.perm⟩

theorem RootInv.mem_leaves {S : List Char} {root : Node} (h : RootInv (countFrequency S) root)
    (s : Char) : s ∈ (leaves root).map Prod.fst ↔ s ∈ S := by
  rw [← mem_mapKeys_countFrequency S s]
  exact (h.perm.map Prod.fst).mem_iff

theorem RootInv.nodup {S : List Char} {root : Node} (h : RootInv (countFrequency S) root) :
    ((leaves root).map Prod.fst).Nodup :=
  (h.perm.map Prod.fst).nodup_iff.mpr (nodup_mapKeys_countFrequency S)

/-- A leaf root: the input is a run of one character. -/
theorem RootInv.of_leaf {S : List Char} {c : Char} {f : Int} {l r : Node}
    (h : RootInv (countFrequency S) (Node.mk c f l r)) (hl : isLeaf (Node.mk c f l r) = true) :
    l = Node.null ∧ r = Node.null ∧ f = (S.length : Int) ∧ S = List.replicate S.length c := by
  obtain ⟨h1, h2⟩ := (isLeaf_mk c f l r).mp hl
  have hF : countFrequency S = [(c, f)] := by
    have := h.perm
    simp only [leaves, hl, if_true] at this
    exact (List.singleton_perm.mp this).symm
  have hall : ∀ s ∈ S, s = c := by
    intro s hs
    have := (mem_mapKeys_countFrequency S s).mpr hs
    rw [hF] at this
    simpa [mapKeys] using this
  have hrep : S = List.replicate S.length c := List.eq_replicate_of_mem hall
  have hcount : mapGet (countFrequency S) c 0 = (S.count c : Int) := mapGet_countFrequency S c
  have hcnt : S.count c = S.length := by
    conv_lhs => rw [hrep]
    simp
  rw [hF, hcnt] at hcount
  simp only [mapGet, if_true] at hcount
  exact ⟨h1, h2, hcount, hrep⟩

theorem printLeaf_spec (c : Char) (n fuel : Nat) (h : n < fuel) :
    printLeaf fuel c (n : Int) = some (-1, List.replicate n c) := by
  induction n generalizing fuel with
  | zero =>
    obtain ⟨fuel, rfl⟩ : ∃ m, fuel = m + 1 := ⟨fuel - 1, by omega⟩
    simp [printLeaf]
  | succ n ih =>
    obtain ⟨fuel, rfl⟩ : ∃ m, fuel = m + 1 := ⟨fuel - 1, by omega⟩
    have hne : ((n + 1 : Nat) : Int) ≠ 0 := by omega
    have hsub : ((n + 1 : Nat) : Int) - 1 = (n : Int) := by omega
    rw [printLeaf, if_pos hne, hsub, ih fuel (by omega)]
    rfl

theorem length_le_length_flatten_map (code : Char → List Char) (S : List Char)
    (h : ∀ s ∈ S, code s ≠ []) : S.length ≤ ((S.map code).flatten).length := by
  induction S with
  | nil => simp
  | cons a S ih =>
    have h1 : 0 < (code a).length := List.length_pos.mpr (h a (List.mem_cons_self _ _))
    have h2 := ih (fun s hs => h s (List.mem_cons_of_mem _ hs))
    simp only [List.map_cons, List.flatten_cons, List.length_append, List.length_cons]
    omega

/-- The code of a symbol of the input, when the root is not a leaf: its path. -/
theorem RootInv.code_eq_path {S : List Char} {root : Node} (h : RootInv (countFrequency S) root)
    (hl : isLeaf root = false) (s : Char) (hs : s ∈ S) :
    (s, mapGet (encode root [] []) s []) ∈ paths root ∧ mapGet (encode root [] []) s [] ≠ [] := by
  obtain ⟨p, hp⟩ := exists_path_of_mem_leaves root s ((h.mem_leaves s).mpr hs)
  have hcode := mapGet_encode root h.nodup s p hp
  have hpne : p ≠ [] := by
    cases root with
    | null => simp [paths] at hp
    | mk c f l r => exact paths_ne_nil_of_not_leaf hl hp
  have : codeOf p = p := by simp [codeOf, hpne]
  rw [hcode, this]
  exact ⟨hp, hpne⟩

/-- The decoding branch gives back the input. -/
theorem decodeAll_encodeText {S : List Char} {root : Node} (h : RootInv (countFrequency S) root) :
    ∃ rootAfter, decodeAll root (encodeText (encode root [] []) S) = some (S, rootAfter) := by
  by_cases hl : isLeaf root = true
  · cases root with
    | null => simp [isLeaf] at hl
    | mk c f l r =>
      obtain ⟨_, _, hf, hrep⟩ := h.of_leaf hl
      subst hf
      refine ⟨Node.mk c (-1) l r, ?_⟩
      have hp := printLeaf_spec c S.length (S.length + 1) (by omega)
      simp only [decodeAll, hl, if_true, Node.frequency, Node.character, Int.toNat_ofNat, hp]
      rw [← hrep]
  · have hl' : isLeaf root = false := by simpa using hl
    refine ⟨root, ?_⟩
    have hcode := fun s hs => h.code_eq_path hl' s hs
    have hloop := decodeLoop_flatten root h.full (fun s => mapGet (encode root [] []) s []) S
      hcode [] ((encodeText (encode root [] []) S).length + 1) (by
        rw [encodeText_eq]
        have := length_le_length_flatten_map (fun s => mapGet (encode root [] []) s []) S
          (fun s hs => (hcode s hs).2)
        omega)
    simp only [List.length_nil, Nat.cast_zero, zero_sub, List.nil_append] at hloop
    rw [← encodeText_eq] at hloop
    simp only [decodeAll, hl', Bool.false_eq_true, if_false, hloop]

/-- What a call of `buildHuffmanTree` on a non-empty input computes. -/
theorem buildHuffmanTree_finished (tie : List Nat) (S : List Char) (h : S ≠ []) :
    ∃ root rootAfter, RootInv (countFrequency S) root ∧
      mergeLoop (initialQueue (countFrequency S)).length tie (initialQueue (countFrequency S))
        = some root ∧
      decodeAll root (encodeText (encode root [] []) S) = some (S, rootAfter) ∧
      buildHuffmanTree tie S = Outcome.finished
        { characterFrequency := countFrequency S
          root := root
          huffmanCode := encode root [] []
          encodedString := encodeText (encode root [] []) S
          decoded := S
          rootAfter := rootAfter } := by
  obtain ⟨root, hroot, hinv⟩ := mergeLoop_initial tie S h
  obtain ⟨rootAfter, hdec⟩ := decodeAll_encodeText (rootInv_of_queueInv hinv)
  refine ⟨root, rootAfter, (rootInv_of_queueInv hinv), hroot, hdec, ?_⟩
  simp only [buildHuffmanTree, h, if_false, hroot, hdec]

/-! ## Frequencies: the root carries the length of the input -/

theorem RootInv.not_leaf_of_two {S : List Char} {root : Node}
    (h : RootInv (countFrequency S) root) {a b : Char} (ha : a ∈ S) (hb : b ∈ S) (hab : a ≠ b) :
    isLeaf root = false := by
  by_contra hl
  have hl' : isLeaf root = true := by simpa using hl
  cases root with
  | null => simp [isLeaf] at hl'
  | mk c f l r =>
    obtain ⟨_, _, _, hrep⟩ := h.of_leaf hl'
    rw [hrep] at ha hb
    exact hab ((List.eq_of_mem_replicate ha).trans (List.eq_of_mem_replicate hb).symm)

theorem codeOf_prefix_free (t : Node) (s₁ s₂ : Char) (p₁ p₂ : List Char)
    (h₁ : (s₁, p₁) ∈ paths t) (h₂ : (s₂, p₂) ∈ paths t) (hne : s₁ ≠ s₂) :
    ¬ codeOf p₁ <+: codeOf p₂ := by
  cases t with
  | null => simp [paths] at h₁
  | mk c f l r =>
    by_cases hl : isLeaf (Node.mk c f l r) = true
    · simp only [paths, hl, if_true, List.mem_singleton, Prod.mk.injEq] at h₁ h₂
      exact absurd (h₁.1.trans h₂.1.symm) hne
    · have hl' : isLeaf (Node.mk c f l r) = false := by simpa using hl
      have e₁ : codeOf p₁ = p₁ := by simp [codeOf, paths_ne_nil_of_not_leaf hl' h₁]
      have e₂ : codeOf p₂ = p₂ := by simp [codeOf, paths_ne_nil_of_not_leaf hl' h₂]
      rw [e₁, e₂]
      exact paths_prefix_free _ _ _ _ _ h₁ h₂ hne

theorem mem_leaves_of_walk (t : Node) (p : List Char) (s : Char) (f : Int)
    (h : walk t p = Node.mk s f Node.null Node.null) : (s, f) ∈ leaves t := by
  induction t generalizing p with
  | null =>
    cases p with
    | nil => simp [walk] at h
    | cons b bs => simp [walk] at h
  | mk c g l r ihl ihr =>
    cases p with
    | nil =>
      simp only [walk, Node.mk.injEq] at h
      obtain ⟨rfl, rfl, rfl, rfl⟩ := h
      simp [leaves, isLeaf]
    | cons b bs =>
      have hnl : isLeaf (Node.mk c g l r) = false := by
        by_contra hl
        have hl' : isLeaf (Node.mk c g l r) = true := by simpa using hl
        obtain ⟨h1, h2⟩ := (isLeaf_mk c g l r).mp hl'
        subst h1 h2
        by_cases hb : b = '0'
        · simp only [walk, hb, if_true] at h
          exact absurd (ihl bs h) (by simp [leaves])
        · simp only [walk, hb, if_false] at h
          exact absurd (ihr bs h) (by simp [leaves])
      simp only [leaves, hnl, Bool.false_eq_true, if_false, List.mem_append]
      by_cases hb : b = '0'
      · simp only [walk, hb, if_true] at h
        exact Or.inl (ihl bs h)
      · simp only [walk, hb, if_false] at h
        exact Or.inr (ihr bs h)

/-! ## Optimality: weights, lengths and the Kraft inequality -/

theorem asBit_eq_zero (b : Char) : asBit b = '0' ↔ b = '0' := by
  unfold asBit
  by_cases h : b = '0'
  · simp [h]
  · simp only [h, if_false, iff_false]
    decide

theorem readChar_map_asBit (E : List Char) (i : Int) :
    (readChar E i = none → readChar (E.map asBit) i = none) ∧
    (∀ b, readChar E i = some b →
      ∃ b', readChar (E.map asBit) i = some b' ∧ (b' = '0' ↔ b = '0')) := by
  unfold readChar
  by_cases h0 : i < 0
  · simp [h0]
  · by_cases h1 : i.toNat < E.length
    · simp only [h0, if_false, h1, if_true, List.length_map, List.get?_eq_getElem?,
        List.getElem?_map, List.getElem?_eq_getElem h1, Option.map_some', Option.some.injEq]
      refine ⟨fun h => by simp at h, ?_⟩
      intro b hb
      exact ⟨asBit b, by rw [hb], asBit_eq_zero b⟩
    · by_cases h2 : i.toNat = E.length
      · simp only [h0, if_false, h1, h2, if_true, List.length_map, lt_self_iff_false,
          Option.some.injEq]
        refine ⟨fun h => by simp at h, ?_⟩
        intro b hb
        exact ⟨'\x00', rfl, by rw [← hb]⟩
      · simp [h0, h1, h2]

/-- The decoder takes every character other than `'0'` for a one bit: on a
string and on the string with these characters replaced by `'1'` it does the
same. -/
theorem decode_map_asBit (t : Node) (i : Int) (E : List Char) :
    decode t i (E.map asBit) = decode t i E := by
  induction t generalizing i with
  | null => simp [decode]
  | mk c f l r ihl ihr =>
    by_cases hl : isLeaf (Node.mk c f l r) = true
    · simp [decode, hl]
    · have hl' : isLeaf (Node.mk c f l r) = false := by simpa using hl
      obtain ⟨hnone, hsome⟩ := readChar_map_asBit E (i + 1)
      rw [decode, decode]
      simp only [hl', Bool.false_eq_true, if_false]
      cases hrd : readChar E (i + 1) with
      | none => simp [hnone hrd]
      | some b =>
        obtain ⟨b', hb', hiff⟩ := hsome b hrd
        rw [hb']
        by_cases hb : b = '0'
        · simp only [hiff.mpr hb, hb, if_true]
          exact ihl (i + 1)
        · have hb2 : ¬ b' = '0' := fun e => hb (hiff.mp e)
          simp only [hb2, hb, if_false]
          exact ihr (i + 1)

theorem decodeLoop_map_asBit (fuel : Nat) (root : Node) (i : Int) (E : List Char) :
    decodeLoop fuel root i (E.map asBit) = decodeLoop fuel root i E := by
  induction fuel generalizing i with
  | zero => simp [decodeLoop]
  | succ fuel ih =>
    rw [decodeLoop, decodeLoop, decode_map_asBit, List.length_map]
    by_cases hc : i < (E.length : Int) - 1
    · simp only [hc, if_true]
      cases decode root i E with
      | none => rfl
      | some r =>
        obtain ⟨i', out⟩ := r
        simp only [ih]
    · simp [hc]

theorem decodeAll_map_asBit (root : Node) (E : List Char) :
    decodeAll root (E.map asBit) = decodeAll root E := by
  unfold decodeAll
  rw [List.length_map, decodeLoop_map_asBit]

/-! ## All outcomes of the merge loop -/

/-- Every one of `allRoots` is the root of the merge loop under some tie-break
order. -/
theorem exists_tie_of_mem_allRoots (fuel : Nat) (pq : List Node) (root : Node)
    (h : root ∈ allRoots fuel pq) : ∃ tie, mergeLoop fuel tie pq = some root := by
  induction fuel generalizing pq with
  | zero => simp [allRoots] at h
  | succ fuel ih =>
    rw [allRoots] at h
    by_cases h1 : pq.length ≠ 1
    · rw [if_pos h1] at h
      obtain ⟨left, hl, h⟩ := List.mem_flatMap.mp h
      obtain ⟨right, hr, h⟩ := List.mem_flatMap.mp h
      obtain ⟨tie, ht⟩ := ih _ h
      obtain ⟨k₁, hk₁⟩ := pqTop_complete (mem_pqTops.mp hl)
      obtain ⟨k₂, hk₂⟩ := pqTop_complete (mem_pqTops.mp hr)
      refine ⟨k₁ :: k₂ :: tie, ?_⟩
      rw [mergeLoop, if_pos h1]
      have e1 : (k₁ :: k₂ :: tie).headD 0 = k₁ := rfl
      have e2 : (k₁ :: k₂ :: tie).tail.headD 0 = k₂ := rfl
      have e3 : (k₁ :: k₂ :: tie).drop 2 = tie := rfl
      rw [e1, e2, e3, hk₁]
      simp only
      rw [hk₂]
      exact ht
    · rw [if_neg h1] at h
      obtain ⟨k, hk⟩ := pqTop_complete (mem_pqTops.mp h)
      refine ⟨[k], ?_⟩
      rw [mergeLoop, if_neg h1]
      exact hk

/-! ## The rounds of the merge loop -/

theorem mergeLoop_eq_trace (fuel : Nat) (tie : List Nat) (pq : List Node) :
    mergeLoop fuel tie pq = (mergeLoopTrace fuel tie pq).map LoopTrace.root := by
  induction fuel generalizing tie pq with
  | zero => rfl
  | succ fuel ih =>
    rw [mergeLoop, mergeLoopTrace]
    by_cases h1 : pq.length ≠ 1
    · rw [if_pos h1, if_pos h1]
      cases pqTop (tie.headD 0) pq with
      | none => rfl
      | some left =>
        simp only
        cases pqTop (tie.tail.headD 0) (pq.erase left) with
        | none => rfl
        | some right =>
          simp only
          rw [ih]
          cases mergeLoopTrace fuel (tie.drop 2)
            (createNode '\x00' (left.frequency + right.frequency) left right
              :: (pq.erase left).erase right) <;> rfl
    · rw [if_neg h1, if_neg h1]
      cases pqTop (tie.headD 0) pq <;> rfl

/-- The merge loop on a non-empty queue ends after one round less than the
queue has elements; every `top()` is on a non-empty queue and returns an
element of least frequency; one node is left, the root. -/
theorem mergeLoopTrace_spec (fuel : Nat) (tie : List Nat) (pq : List Node) (hne : pq ≠ [])
    (hlen : pq.length ≤ fuel) :
    ∃ t, mergeLoopTrace fuel tie pq = some t ∧ t.steps.length + 1 = pq.length ∧
      t.remaining = [t.root] ∧
      (∀ st ∈ t.steps, IsMin st.2.1 st.1 ∧ IsMin st.2.2 (st.1.erase st.2.1)) ∧
      Chained pq t.steps t.remaining := by
  induction fuel generalizing tie pq with
  | zero =>
    have : pq = [] := List.length_eq_zero.mp (Nat.le_zero.mp hlen)
    exact absurd this hne
  | succ fuel ih =>
    rw [mergeLoopTrace]
    by_cases h1 : pq.length ≠ 1
    · rw [if_pos h1]
      have hpos := List.length_pos.mpr hne
      obtain ⟨left, hleft⟩ := pqTop_exists (tie.headD 0) hne
      have hlmin := pqTop_isMin hleft
      have hlen1 := List.length_erase_of_mem hlmin.1
      have hne1 : pq.erase left ≠ [] := by
        intro h
        rw [h] at hlen1
        simp at hlen1
        omega
      obtain ⟨right, hright⟩ := pqTop_exists (tie.tail.headD 0) hne1
      have hrmin := pqTop_isMin hright
      have hlenm := length_merged hlmin.1 hrmin.1
      obtain ⟨t, ht, hsteps, hrem, hmin, hchain⟩ := ih (tie.drop 2) (merged pq left right)
        (by simp [merged]) (by omega)
      rw [hleft]
      simp only
      rw [hright]
      simp only
      unfold merged at ht
      rw [ht]
      refine ⟨_, rfl, ?_, hrem, ?_, ?_⟩
      · simp only [List.length_cons]
        omega
      · intro st hst
        rcases List.mem_cons.mp hst with rfl | hst
        · exact ⟨hlmin, hrmin⟩
        · exact hmin st hst
      · exact ⟨rfl, hchain⟩
    · rw [if_neg h1]
      have h1' : pq.length = 1 := by
        by_contra hc
        exact h1 hc
      obtain ⟨root, rfl⟩ := List.length_eq_one.mp h1'
      obtain ⟨x, hx⟩ := pqTop_exists (tie.headD 0) hne
      have hxr : x = root := by simpa using (pqTop_isMin hx).1
      subst hxr
      rw [hx]
      exact ⟨_, rfl, by simp, rfl, by simp, rfl⟩

/-! ## The positions the decoder reads -/

/-- C2 (prefix-freeness).  For every non-empty input, in the code table that
`encode` fills from the built tree, the code of a symbol is never a prefix of
the code of a different symbol. -/
theorem code_table_prefix_free (tie : List Nat) (S : List Char) (h : S ≠ []) :
    ∃ run, buildHuffmanTree tie S = Outcome.finished run ∧
      ∀ s₁ ∈ mapKeys run.huffmanCode, ∀ s₂ ∈ mapKeys run.huffmanCode, s₁ ≠ s₂ →
        ¬ mapGet run.huffmanCode s₁ [] <+: mapGet run.huffmanCode s₂ [] := by
  obtain ⟨root, rootAfter, hinv, _, _, hrun⟩ := buildHuffmanTree_finished tie S h
  refine ⟨_, hrun, ?_⟩
  intro s₁ h₁ s₂ h₂ hne
  obtain ⟨p₁, hp₁⟩ := exists_path_of_mem_leaves root s₁ ((mem_mapKeys_encode root s₁).mp h₁)
  obtain ⟨p₂, hp₂⟩ := exists_path_of_mem_leaves root s₂ ((mem_mapKeys_encode root s₂).mp h₂)
  show ¬ mapGet (encode root [] []) s₁ [] <+: mapGet (encode root [] []) s₂ []
  rw [mapGet_encode root hinv.nodup s₁ p₁ hp₁, mapGet_encode root hinv.nodup s₂ p₂ hp₂]
  exact codeOf_prefix_free root s₁ s₂ p₁ p₂ hp₁ hp₂ hne

theorem code_table_prefix_free_witness :
    ['a', 'b', 'a'] ≠ [] ∧
    ∃ run, buildHuffmanTree [] ['a', 'b', 'a'] = Outcome.finished run ∧
      ∀ s₁ ∈ mapKeys run.huffmanCode, ∀ s₂ ∈ mapKeys run.huffmanCode, s₁ ≠ s₂ →
        ¬ mapGet run.huffmanCode s₁ [] <+: mapGet run.huffmanCode s₂ [] :=
  ⟨by decide, code_table_prefix_free [] ['a', 'b', 'a'] (by decide)⟩

/-- C4 (coverage).  For every input, the keys of the code table are exactly the
symbols that occur in the input, each key once; on the empty input the function
returns before a table exists. -/
theorem code_table_coverage (tie : List Nat) (S : List Char) :
    (S = [] ∧ buildHuffmanTree tie S = Outcome.returned) ∨
    ∃ run, buildHuffmanTree tie S = Outcome.finished run ∧
      (∀ s, s ∈ mapKeys run.huffmanCode ↔ s ∈ S) ∧ (mapKeys run.huffmanCode).Nodup := by
  by_cases h : S = []
  · subst h
    exact Or.inl ⟨rfl, rfl⟩
  · obtain ⟨root, rootAfter, hinv, _, _, hrun⟩ := buildHuffmanTree_finished tie S h
    refine Or.inr ⟨_, hrun, ?_, nodup_mapKeys_encode root⟩
    intro s
    exact (mem_mapKeys_encode root s).trans (hinv.mem_leaves s)

/-- C6 (leaf set).  For every non-empty input with frequency map `F`, the
leaves of the built tree are exactly the keys of `F`, each key at exactly one
leaf, and every leaf carries the frequency `F` gives its symbol. -/
theorem leaf_set (tie : List Nat) (S : List Char) (h : S ≠ []) :
    ∃ run, buildHuffmanTree tie S = Outcome.finished run ∧
      run.characterFrequency = countFrequency S ∧
      (leaves run.root).Perm run.characterFrequency ∧
      (∀ s, s ∈ (leaves run.root).map Prod.fst ↔ s ∈ mapKeys run.characterFrequency) ∧
      ((leaves run.root).map Prod.fst).Nodup ∧
      ∀ s f, (s, f) ∈ leaves run.root → f = mapGet run.characterFrequency s 0 := by
  obtain ⟨root, rootAfter, hinv, _, _, hrun⟩ := buildHuffmanTree_finished tie S h
  refine ⟨_, hrun, rfl, hinv.perm, ?_, hinv.nodup, ?_⟩
  · intro s
    exact (hinv.perm.map Prod.fst).mem_iff
  · intro s f hsf
    exact (mapGet_of_mem _ s f 0 (nodup_mapKeys_countFrequency S) (hinv.perm.mem_iff.mp hsf)).symm

theorem leaf_set_witness :
    ['a', 'b', 'a'] ≠ [] ∧
    ∃ run, buildHuffmanTree [] ['a', 'b', 'a'] = Outcome.finished run ∧
      run.characterFrequency = countFrequency ['a', 'b', 'a'] ∧
      (leaves run.root).Perm run.characterFrequency ∧
      (∀ s, s ∈ (leaves run.root).map Prod.fst ↔ s ∈ mapKeys run.characterFrequency) ∧
      ((leaves run.root).map Prod.fst).Nodup ∧
      ∀ s f, (s, f) ∈ leaves run.root → f = mapGet run.characterFrequency s 0 :=
  ⟨by decide, leaf_set [] ['a', 'b', 'a'] (by decide)⟩

/-- C8 (encoder output).  For every input and the code table built for it, the
encoded string is the concatenation of the codes of the symbols of the input in
input order, and its length is the sum of the lengths of these codes. -/
theorem encoder_output (tie : List Nat) (S : List Char) :
    (S = [] ∧ buildHuffmanTree tie S = Outcome.returned) ∨
    ∃ run, buildHuffmanTree tie S = Outcome.finished run ∧
      run.encodedString = (S.map (fun s => mapGet run.huffmanCode s [])).flatten ∧
      run.encodedString.length = (S.map (fun s => (mapGet run.huffmanCode s []).length)).sum := by
  by_cases h : S = []
  · subst h
    exact Or.inl ⟨rfl, rfl⟩
  · obtain ⟨root, rootAfter, hinv, _, _, hrun⟩ := buildHuffmanTree_finished tie S h
    refine Or.inr ⟨_, hrun, encodeText_eq _ S, ?_⟩
    show (encodeText (encode root [] []) S).length = _
    rw [encodeText_eq, List.length_flatten, List.map_map]
    rfl

/-- C10 (a code follows the tree path).  For every input with at least two
distinct symbols and every symbol `s` of the code table, walking from the root
along the code of `s`, left on `'0'` and right on `'1'`, ends at a leaf whose
character is `s`. -/
theorem code_follows_path (tie : List Nat) (S : List Char)
    (h2 : ∃ a ∈ S, ∃ b ∈ S, a ≠ b) :
    ∃ run, buildHuffmanTree tie S = Outcome.finished run ∧
      ∀ s ∈ mapKeys run.huffmanCode,
        ∃ f, walk run.root (mapGet run.huffmanCode s []) = Node.mk s f Node.null Node.null ∧
          (s, f) ∈ leaves run.root := by
  obtain ⟨a, ha, b, hb, hab⟩ := h2
  have hne : S ≠ [] := List.ne_nil_of_mem ha
  obtain ⟨root, rootAfter, hinv, _, _, hrun⟩ := buildHuffmanTree_finished tie S hne
  refine ⟨_, hrun, ?_⟩
  intro s hs
  have hl := hinv.not_leaf_of_two ha hb hab
  have hsS : s ∈ S := (hinv.mem_leaves s).mp ((mem_mapKeys_encode root s).mp hs)
  obtain ⟨hp, _⟩ := hinv.code_eq_path hl s hsS
  obtain ⟨f, hf⟩ := walk_path root s _ hp
  refine ⟨f, hf, ?_⟩
  exact mem_leaves_of_walk root _ s f hf

theorem code_follows_path_witness :
    (∃ a ∈ ['a', 'b', 'a'], ∃ b ∈ ['a', 'b', 'a'], a ≠ b) ∧
    ∃ run, buildHuffmanTree [] ['a', 'b', 'a'] = Outcome.finished run ∧
      ∀ s ∈ mapKeys run.huffmanCode,
        ∃ f, walk run.root (mapGet run.huffmanCode s []) = Node.mk s f Node.null Node.null ∧
          (s, f) ∈ leaves run.root :=
  ⟨⟨'a', by decide, 'b', by decide, by decide⟩,
    code_follows_path [] ['a', 'b', 'a'] ⟨'a', by decide, 'b', by decide, by decide⟩⟩

/-- C14, as stated, fails.  On the tree built for "ab" (codes b = "0",
a = "1") the string "x0" holds a character that is neither `'0'` nor `'1'` at
the first position the decoder reads; the decoder reports no failure: it takes
`'x'` for a one bit and returns normally with the symbols "ab". -/
theorem invalid_bit_counterexample :
    ∃ run, buildHuffmanTree [] "ab".toList = Outcome.finished run ∧
      isLeaf run.root = false ∧
      mapGet run.huffmanCode 'a' [] = "1".toList ∧
      decodeAll run.root "x0".toList = some ("ab".toList, run.root) := by
  refine ⟨_, rfl, ?_, ?_, ?_⟩ <;> decide

/-- C14, amended.  For every tree and every string, the decoder reports no
failure on a character other than `'0'` and `'1'`: it takes every character
other than `'0'` for a one bit.  On an internal node, reading such a character
it steps to the right child, and `decode`, the driver loop and the decoding
branch give on any string the result they give on the string with every
character other than `'0'` replaced by `'1'`. -/
theorem invalid_bit_as_one (root : Node) (E : List Char) :
    decodeAll root (E.map asBit) = decodeAll root E ∧
    (∀ (t : Node) (index : Int), decode t index (E.map asBit) = decode t index E) ∧
    (∀ (c : Char) (f : Int) (l r : Node) (index : Int) (b : Char),
      isLeaf (Node.mk c f l r) = false → readChar E (index + 1) = some b → b ≠ '0' →
        decode (Node.mk c f l r) index E = decode r (index + 1) E) := by
  refine ⟨decodeAll_map_asBit root E, fun t index => decode_map_asBit t index E, ?_⟩
  intro c f l r index b hl hrd hb
  rw [decode]
  simp [hl, hrd, hb]

/-- C15 on a single-symbol input.  On the input "aaaa" the merge loop leaves
the leaf `('a', 4)` as root, and the printing loop of the leaf branch,
`while (root->frequency--)`, counts the frequency stored in the root down: when
the function ends the root carries the frequency -1, not the length 4 of the
input.  (With two or more distinct symbols the decoding branch only reads the
tree.) -/
theorem tree_mutated_on_single_symbol :
    ∃ run, buildHuffmanTree [] "aaaa".toList = Outcome.finished run ∧
      run.root = Node.mk 'a' 4 Node.null Node.null ∧
      run.decoded = "aaaa".toList ∧
      run.rootAfter = Node.mk 'a' (-1) Node.null Node.null ∧
      run.rootAfter ≠ run.root ∧
      run.rootAfter.frequency ≠ (("aaaa".toList.length : Nat) : Int) := by
  refine ⟨_, rfl, ?_, ?_, ?_, ?_, ?_⟩ <;> decide

/-- C16 (empty input).  On the empty input `buildHuffmanTree` does not fail: it
returns at once and prints no decoded character.  Nothing is built, and the
stages give empty results on their empty inputs: the counting loop gives the
empty frequency map, no leaf is pushed on the queue, so there is no tree;
`encode` on the null pointer leaves the code table empty, and the encoding loop
gives a string of length 0. -/
theorem empty_input (tie : List Nat) :
    buildHuffmanTree tie [] = Outcome.returned ∧
    buildHuffmanTree tie [] ≠ Outcome.undefined ∧
    (buildHuffmanTree tie []).output = some [] ∧
    countFrequency [] = [] ∧
    initialQueue (countFrequency []) = [] ∧
    encode Node.null [] [] = [] ∧
    encodeText (encode Node.null [] []) [] = [] ∧
    (encodeText (encode Node.null [] []) []).length = 0 := by
  refine ⟨rfl, ?_, rfl, rfl, rfl, rfl, rfl, rfl⟩
  intro h
  cases h

/-- C18 (tree construction terminates).  For every non-empty frequency map with
`n` entries and every tie-break order, the merge loop ends: its body runs
exactly `n - 1` times; in every round both calls of `top()` are on a non-empty
queue and return a node of least frequency, the two nodes are taken out and
their parent (first node left, second node right, frequency the sum) is pushed;
the loop leaves exactly one node on the queue, which is the root.  For `n = 1`
the body never runs and the root is a leaf. -/
theorem tree_construction_terminates (tie : List Nat) (F : List (Char × Int)) (hF : F ≠ []) :
    ∃ t, mergeLoopTrace (initialQueue F).length tie (initialQueue F) = some t ∧
      mergeLoop (initialQueue F).length tie (initialQueue F) = some t.root ∧
      t.steps.length = F.length - 1 ∧
      (∀ st ∈ t.steps, st.1 ≠ [] ∧ IsMin st.2.1 st.1 ∧
        st.1.erase st.2.1 ≠ [] ∧ IsMin st.2.2 (st.1.erase st.2.1)) ∧
      Chained (initialQueue F) t.steps t.remaining ∧
      t.remaining = [t.root] ∧
      Full t.root ∧ SumOfChildren t.root ∧
      (F.length = 1 → t.steps = [] ∧ isLeaf t.root = true) := by
  have hne : initialQueue F ≠ [] := by
    intro hc
    have := length_initialQueue F
    rw [hc] at this
    exact hF (List.length_eq_zero.mp this.symm)
  obtain ⟨t, ht, hsteps, hrem, hmin, hchain⟩ :=
    mergeLoopTrace_spec (initialQueue F).length tie (initialQueue F) hne (le_refl _)
  have hroot : mergeLoop (initialQueue F).length tie (initialQueue F) = some t.root := by
    rw [mergeLoop_eq_trace, ht]
    rfl
  obtain ⟨root, hroot', hinv⟩ := mergeLoop_rec (QueueInv F) (fun _ root => QueueInv F [root])
    (fun pq left right _ hp hl hr => queueInv_merged hp hl hr)
    (fun root hp => hp)
    (fun _ _ _ _ _ _ _ _ hrel => hrel)
    _ tie _ hne (le_refl _) (queueInv_initialQueue F)
  obtain rfl : root = t.root := Option.some.inj (hroot'.symm.trans hroot)
  have hri := rootInv_of_queueInv hinv
  rw [length_initialQueue] at hsteps
  refine ⟨t, ht, hroot, by omega, ?_, hchain, hrem, hri.full, hri.sums, ?_⟩
  · intro st hst
    obtain ⟨h1, h2⟩ := hmin st hst
    exact ⟨List.ne_nil_of_mem h1.1, h1, List.ne_nil_of_mem h2.1, h2⟩
  · intro h1
    have hs : t.steps = [] := List.length_eq_zero.mp (by omega)
    refine ⟨hs, ?_⟩
    rw [hs] at hchain
    have hq : t.remaining = initialQueue F := hchain
    obtain ⟨p, rfl⟩ := List.length_eq_one.mp h1
    rw [hrem] at hq
    have : t.root = Node.mk p.1 p.2 Node.null Node.null := by
      simpa [initialQueue, createNode] using hq
    rw [this]
    rfl

theorem tree_construction_terminates_witness :
    [('a', (2 : Int)), ('b', 1)] ≠ [] ∧
    ∃ t, mergeLoopTrace (initialQueue [('a', 2), ('b', 1)]).length [] (initialQueue [('a', 2), ('b', 1)])
        = some t ∧
      mergeLoop (initialQueue [('a', 2), ('b', 1)]).length [] (initialQueue [('a', 2), ('b', 1)])
        = some t.root ∧
      t.steps.length = [('a', (2 : Int)), ('b', 1)].length - 1 ∧
      (∀ st ∈ t.steps, st.1 ≠ [] ∧ IsMin st.2.1 st.1 ∧
        st.1.erase st.2.1 ≠ [] ∧ IsMin st.2.2 (st.1.erase st.2.1)) ∧
      Chained (initialQueue [('a', 2), ('b', 1)]) t.steps t.remaining ∧
      t.remaining = [t.root] ∧
      Full t.root ∧ SumOfChildren t.root ∧
      ([('a', (2 : Int)), ('b', 1)].length = 1 → t.steps = [] ∧ isLeaf t.root = true) :=
  ⟨by decide, tree_construction_terminates [] [('a', 2), ('b', 1)] (by decide)⟩

end TextCompressor
